import Mathlib

/-!
Verification of the spike-sorting comparison engine described in the design
specification of this repository.  The example source only *calls* the
comparison API (`compare_sorter_to_ground_truth`, `compare_two_sorters`,
`compare_multiple_sorters`, `get_performance`, `get_mapped_unit_ids`,
`get_agreement_sorting`, `get_unit_ids`), so the engine itself is modelled
from the specification text and verified against the properties the
specification states about it.

Conventions of the embedding: timestamps are integers (a fixed sampling
context), tolerances are natural numbers, and scores that the specification
treats as rational agreement fractions are represented executably as
numerator/denominator pairs of naturals, compared by cross multiplication;
the rational-valued fraction itself appears in theorem statements and is
linked to the executable comparisons by bridge lemmas.
-/

namespace SpikeComparison

/-- Modelled from the spec: a SpikeTrain is an ordered sequence of spike
timestamps for one unit (the engine itself is absent from the example
source).  Timestamps live in a fixed shared sampling context, embedded as
integers. -/
abbrev SpikeTrain := List Int

/-- Modelled from the spec: a Sorting is a mapping from unit identifier to
that unit's spike train, embedded as an association list. -/
abbrev Sorting := List (Nat × SpikeTrain)

/-- Modelled from the spec: the error taxonomy of the comparison engine
(section 7 of the design). -/
inductive ComparisonError
  | invalidTrain
  | emptySorting
  | incompatibleSamplingContext
  | configuration
deriving DecidableEq

/-- Modelled from the spec: SpikeTrain construction validates that the
timestamps are monotonically non-decreasing and non-negative, failing with
`InvalidTrainError` otherwise; a successfully built train is the (immutable)
timestamp list itself. -/
def mkSpikeTrain (ts : List Int) : Except ComparisonError SpikeTrain :=
  if List.Chain' (· ≤ ·) ts ∧ ∀ t ∈ ts, 0 ≤ t then Except.ok ts
  else Except.error ComparisonError.invalidTrain

/-- Modelled from the spec: the greedy earliest-available two-pointer sweep
of PairwiseMatcher, counting matched spike events.  A spike of the first
train matches a spike of the second when their absolute time difference is
at most `delta`; on a match both pointers advance, otherwise the pointer at
the earlier spike advances.  The fuel argument makes the double recursion
structural; `countMatch` supplies enough fuel to consume both trains. -/
def countMatchAux (delta : Nat) : Nat → List Int → List Int → Nat
  | 0, _, _ => 0
  | _ + 1, [], _ => 0
  | _ + 1, _ :: _, [] => 0
  | fuel + 1, a :: as, b :: bs =>
    if (a - b).natAbs ≤ delta then countMatchAux delta fuel as bs + 1
    else if a < b then countMatchAux delta fuel as (b :: bs)
    else countMatchAux delta fuel (a :: as) bs

/-- Modelled from the spec: matched-event count of the two-pointer sweep. -/
def countMatch (delta : Nat) (as bs : List Int) : Nat :=
  countMatchAux delta (as.length + bs.length) as bs

/-- Modelled from the spec: the transient MatchEvent list of the same sweep,
recording which spike of the first train was paired with which spike of the
second.  Used to state that every spike participates in at most one match. -/
def matchedPairsAux (delta : Nat) : Nat → List Int → List Int → List (Int × Int)
  | 0, _, _ => []
  | _ + 1, [], _ => []
  | _ + 1, _ :: _, [] => []
  | fuel + 1, a :: as, b :: bs =>
    if (a - b).natAbs ≤ delta then (a, b) :: matchedPairsAux delta fuel as bs
    else if a < b then matchedPairsAux delta fuel as (b :: bs)
    else matchedPairsAux delta fuel (a :: as) bs

/-- Modelled from the spec: the list of matched spike events of the sweep. -/
def matchedPairs (delta : Nat) (as bs : List Int) : List (Int × Int) :=
  matchedPairsAux delta (as.length + bs.length) as bs

/-- Modelled from the spec: the agreement fraction of a pair of trains is
the matched count divided by the size of the larger train. -/
def agreement_score (delta : Nat) (a b : List Int) : ℚ :=
  (countMatch delta a b : ℚ) / ((max a.length b.length : Nat) : ℚ)

/-- Modelled from the spec: the candidate record a unitA builds for one
unitB of the other Sorting — the unitB identifier, the matched count, and
the size of the larger train (the denominator of the agreement fraction). -/
def candidates (delta : Nat) (ta : List Int) (sB : Sorting) : List (Nat × Nat × Nat) :=
  sB.map fun p => (p.1, countMatch delta ta p.2, max ta.length p.2.length)

/-- Cross-multiplied strict comparison of two agreement fractions
`c1 / d1 < c2 / d2`, executable over naturals. -/
def scoreLt (c1 d1 c2 d2 : Nat) : Bool := decide (c1 * d2 < c2 * d1)

/-- Cross-multiplied equality of two agreement fractions. -/
def scoreEq (c1 d1 c2 d2 : Nat) : Bool := decide (c1 * d2 = c2 * d1)

/-- Modelled from the spec: candidate `x` beats candidate `y` when its
agreement fraction is strictly higher, or equal with a lower unitB
identifier (the documented deterministic tie-break). -/
def better (x y : Nat × Nat × Nat) : Bool :=
  scoreLt y.2.1 y.2.2 x.2.1 x.2.2 || (scoreEq x.2.1 x.2.2 y.2.1 y.2.2 && decide (x.1 < y.1))

/-- Modelled from the spec: select the best candidate of a list under
`better`; the highest agreement fraction wins and ties go to the lowest
unitB identifier. -/
def pickBest : List (Nat × Nat × Nat) → Option (Nat × Nat × Nat)
  | [] => none
  | x :: rest =>
    match pickBest rest with
    | none => some x
    | some y => if better x y then some x else some y

/-- Modelled from the spec: PairwiseMatcher's best-match selection for one
unitA train against Sorting B — the best candidate is kept only when its
agreement fraction strictly exceeds the configured minimum `tn / td`
(default 1/2); otherwise unitA is unmatched. -/
def bestMatch (delta tn td : Nat) (ta : List Int) (sB : Sorting) : Option Nat :=
  match pickBest (candidates delta ta sB) with
  | none => none
  | some x => if tn * x.2.2 < x.2.1 * td then some x.1 else none

/-- Modelled from the spec: the unmatched sentinel — a matched unitB id is
reported as itself, an unmatched unit as `-1`. -/
def sentinelOf : Option Nat → Int
  | none => -1
  | some u => (u : Int)

/-- The rational value of a candidate record, for stating specifications. -/
def candScore (e : Nat × Nat × Nat) : ℚ := (e.2.1 : ℚ) / (e.2.2 : ℚ)

/-- Modelled from the spec: PairwiseMatcher.match — fails fast with
`EmptySortingError` when either Sorting has no units and otherwise returns
the CorrespondenceTable mapping every unitA identifier to its best-match
result; no table is produced on the error path. -/
def matchSortings (delta tn td : Nat) (sA sB : Sorting) :
    Except ComparisonError (List (Nat × Option Nat)) :=
  if sA.isEmpty || sB.isEmpty then Except.error ComparisonError.emptySorting
  else Except.ok (sA.map fun p => (p.1, bestMatch delta tn td p.2 sB))

/-- Modelled from the spec: per-pair confusion counts of the
PerformanceScorer. -/
structure Counts where
  tp : Nat
  fn : Nat
  fp : Nat
deriving DecidableEq

/-- Modelled from the spec: PerformanceScorer counts for one matched
(gt, tested) pair — true positives are the matched spikes, false negatives
the remaining gt spikes, false positives the remaining tested spikes. -/
def scorePair (delta : Nat) (gt tested : List Int) : Counts :=
  { tp := countMatch delta gt tested
    fn := gt.length - countMatch delta gt tested
    fp := tested.length - countMatch delta gt tested }

/-- Modelled from the spec: precision = TP / (TP + FP). -/
def precision (c : Counts) : ℚ := (c.tp : ℚ) / ((c.tp + c.fp : Nat) : ℚ)

/-- Modelled from the spec: recall = TP / (TP + FN); named `recallOf`
because `recall` is reserved in the proof environment. -/
def recallOf (c : Counts) : ℚ := (c.tp : ℚ) / ((c.tp + c.fn : Nat) : ℚ)

/-- Modelled from the spec: accuracy = TP / (TP + FP + FN). -/
def accuracy (c : Counts) : ℚ := (c.tp : ℚ) / ((c.tp + c.fp + c.fn : Nat) : ℚ)

/-- The unit identifiers of a Sorting, in order. -/
def unitIds (s : Sorting) : List Nat := s.map Prod.fst

/-- Train of a given unit identifier within a Sorting, when present. -/
def lookupTrain (s : Sorting) (u : Nat) : Option SpikeTrain :=
  (s.find? fun p => p.1 == u).map Prod.snd

/-- Modelled from the spec: two units of two sortings are mutual best
matches when each one's thresholded best match in the other sorting is
exactly the other unit. -/
def isMutualBest (delta tn td : Nat) (si sj : Sorting) (x y : Nat) : Bool :=
  match lookupTrain si x, lookupTrain sj y with
  | some tx, some ty =>
      decide (bestMatch delta tn td tx sj = some y) &&
        decide (bestMatch delta tn td ty si = some x)
  | _, _ => false

/-- A node of the AgreementGraph: (sorting index, unit identifier). -/
abbrev GraphNode := Nat × Nat

/-- Modelled from the spec: MultiComparator.compareMultiple edge
construction — PairwiseMatcher runs on every unordered pair of sortings and
an edge joins two units exactly when they are mutual best matches above the
threshold. -/
def mutualEdges (delta tn td : Nat) (ss : List Sorting) :
    List (GraphNode × GraphNode) :=
  (List.range ss.length).flatMap fun i =>
    ((List.range ss.length).filter fun j => decide (i < j)).flatMap fun j =>
      (unitIds (ss.getD i [])).flatMap fun x =>
        ((unitIds (ss.getD j [])).filter fun y =>
          isMutualBest delta tn td (ss.getD i []) (ss.getD j []) x y).map
          fun y => ((i, x), (j, y))

/-- Adjacency in the (undirected) AgreementGraph given by an edge list. -/
def adjacentB (es : List (GraphNode × GraphNode)) (n m : GraphNode) : Bool :=
  es.any fun e => (e.1 == n && e.2 == m) || (e.1 == m && e.2 == n)

/-- Duplicate removal keeping first occurrences (auxiliary accumulator). -/
def dedupFAux {α : Type} [DecidableEq α] (seen : List α) : List α → List α
  | [] => []
  | x :: xs => if x ∈ seen then dedupFAux seen xs else x :: dedupFAux (x :: seen) xs

/-- Duplicate removal keeping first occurrences. -/
def dedupF {α : Type} [DecidableEq α] (l : List α) : List α := dedupFAux [] l

/-- One breadth expansion of a set of nodes by graph adjacency. -/
def growOnce (es : List (GraphNode × GraphNode)) (all cur : List GraphNode) :
    List GraphNode :=
  dedupF (cur ++ all.filter fun m => cur.any fun n => adjacentB es n m)

/-- Iterated breadth expansion. -/
def growN (es : List (GraphNode × GraphNode)) (all : List GraphNode) :
    Nat → List GraphNode → List GraphNode
  | 0, cur => cur
  | k + 1, cur => growN es all k (growOnce es all cur)

/-- Modelled from the spec: the connected component of a node, computed by
expanding adjacency to a fixpoint (node-count many steps suffice). -/
def componentOf (es : List (GraphNode × GraphNode)) (all : List GraphNode)
    (n : GraphNode) : List GraphNode :=
  growN es all all.length [n]

/-- Worklist extraction of all components in node order. -/
def componentsAux (es : List (GraphNode × GraphNode)) (all : List GraphNode) :
    List GraphNode → List GraphNode → List (List GraphNode)
  | [], _ => []
  | n :: rest, seen =>
    if n ∈ seen then componentsAux es all rest seen
    else componentOf es all n :: componentsAux es all rest (seen ++ componentOf es all n)

/-- Modelled from the spec: the connected components of the AgreementGraph. -/
def components (es : List (GraphNode × GraphNode)) (all : List GraphNode) :
    List (List GraphNode) :=
  componentsAux es all all []

/-- All nodes of the AgreementGraph of a list of sortings. -/
def allNodes (ss : List Sorting) : List GraphNode :=
  ss.enum.flatMap fun p => (unitIds p.2).map fun u => (p.1, u)

/-- The distinct sorting indices appearing in a component, in first-seen
order. -/
def sortingIdxs (c : List GraphNode) : List Nat := dedupF (c.map Prod.fst)

/-- Number of distinct sortings represented in a component. -/
def distinctSortingCount (c : List GraphNode) : Nat := (sortingIdxs c).length

/-- The spike train a node refers to (empty if the reference dangles). -/
def trainOf (ss : List Sorting) (n : GraphNode) : SpikeTrain :=
  (lookupTrain (ss.getD n.1 []) n.2).getD []

/-- Agreement fraction of two trains as an unreduced numerator/denominator
pair of naturals (`0/0` is normalised to `0/1`, the rational convention). -/
def scoreFrac (delta : Nat) (a b : List Int) : Nat × Nat :=
  if max a.length b.length = 0 then (0, 1)
  else (countMatch delta a b, max a.length b.length)

/-- Exact unreduced addition of two natural fractions. -/
def addFrac (x y : Nat × Nat) : Nat × Nat := (x.1 * y.2 + y.1 * x.2, x.2 * y.2)

/-- Modelled from the spec: the aggregate (sum of pairwise agreement
scores against the members of the other sortings) used for conflict
resolution; over a fixed set of others, ordering sums orders means
identically. -/
def sumScores (delta : Nat) (ss : List Sorting) (others : List GraphNode)
    (n : GraphNode) : Nat × Nat :=
  others.foldr (fun m acc => addFrac (scoreFrac delta (trainOf ss n) (trainOf ss m)) acc)
    (0, 1)

/-- Modelled from the spec: conflict resolution inside one component — for
each distinct sorting, among that sorting's members exactly the one with
the highest aggregate pairwise score survives, ties broken by lowest unit
identifier. -/
def resolveConflicts (delta : Nat) (ss : List Sorting) (c : List GraphNode) :
    List GraphNode :=
  (sortingIdxs c).filterMap fun i =>
    (pickBest ((c.filter fun n => n.1 == i).map fun n =>
      (n.2, sumScores delta ss (c.filter fun m => !(m.1 == i)) n))).map fun x => (i, x.1)

/-- Modelled from the spec: `getAgreementSet` — connected components of the
agreement graph, restricted to those covering at least `minimumMatching`
distinct sortings, with per-sorting conflicts resolved. -/
def getAgreementSet (delta tn td : Nat) (ss : List Sorting)
    (minimumMatching : Nat) : List (List GraphNode) :=
  ((components (mutualEdges delta tn td ss) (allNodes ss)).filter
    fun c => decide (minimumMatching ≤ distinctSortingCount c)).map
    (resolveConflicts delta ss)

/-- The source's `get_unit_ids` accessor of a Sorting. -/
def get_unit_ids (s : Sorting) : List Nat := s.map Prod.fst

/-- The rational value of a numerator/denominator pair. -/
def fracVal (p : Nat × Nat) : ℚ := (p.1 : ℚ) / (p.2 : ℚ)

/-- The rational sum of a node's pairwise agreement scores against a list
of other nodes. -/
def sumPairwiseScore (delta : Nat) (ss : List Sorting) (others : List GraphNode)
    (n : GraphNode) : ℚ :=
  (others.map fun m => agreement_score delta (trainOf ss n) (trainOf ss m)).sum

/-- Modelled from the spec: the mean pairwise agreement score of a node
against the other members of its component, the quantity that conflict
resolution maximises. -/
def meanPairwiseScore (delta : Nat) (ss : List Sorting) (others : List GraphNode)
    (n : GraphNode) : ℚ :=
  sumPairwiseScore delta ss others n / ((others.length : Nat) : ℚ)

/-- Modelled from the spec and the source's `get_agreement_sorting`: the
consensus result is itself a Sorting whose units are the agreement sets
(numbered consecutively), each carrying a representative member train, so
it exposes the very same unit-query interface as the inputs. -/
def getAgreementSorting (delta tn td : Nat) (ss : List Sorting) (m : Nat) :
    Sorting :=
  (getAgreementSet delta tn td ss m).enum.map fun p =>
    (p.1, (p.2.map (trainOf ss)).headD [])

theorem countMatchAux_eq_length (delta : Nat) :
    ∀ fuel as bs, countMatchAux delta fuel as bs = (matchedPairsAux delta fuel as bs).length := by
  intro fuel
  induction fuel with
  | zero => intro as bs; rfl
  | succ f ih =>
    intro as bs
    cases as with
    | nil => rfl
    | cons a as =>
      cases bs with
      | nil => rfl
      | cons b bs =>
        simp only [countMatchAux, matchedPairsAux]
        split
        · simp [ih]
        · split
          · exact ih as (b :: bs)
          · exact ih (a :: as) bs

theorem matchedPairsAux_within (delta : Nat) :
    ∀ fuel as bs, ∀ p ∈ matchedPairsAux delta fuel as bs, (p.1 - p.2).natAbs ≤ delta := by
  intro fuel
  induction fuel with
  | zero => intro as bs p hp; simp [matchedPairsAux] at hp
  | succ f ih =>
    intro as bs p hp
    cases as with
    | nil => simp [matchedPairsAux] at hp
    | cons a as =>
      cases bs with
      | nil => simp [matchedPairsAux] at hp
      | cons b bs =>
        simp only [matchedPairsAux] at hp
        split at hp
        · rcases List.mem_cons.mp hp with h | h
          · subst h; assumption
          · exact ih as bs p h
        · split at hp
          · exact ih as (b :: bs) p hp
          · exact ih (a :: as) bs p hp

theorem matchedPairsAux_fst_sublist (delta : Nat) :
    ∀ fuel as bs, ((matchedPairsAux delta fuel as bs).map Prod.fst).Sublist as := by
  intro fuel
  induction fuel with
  | zero => intro as bs; simp [matchedPairsAux]
  | succ f ih =>
    intro as bs
    cases as with
    | nil => simp [matchedPairsAux]
    | cons a as =>
      cases bs with
      | nil => simp [matchedPairsAux]
      | cons b bs =>
        simp only [matchedPairsAux]
        split
        · simpa using List.Sublist.cons₂ a (ih as bs)
        · split
          · exact List.Sublist.cons a (ih as (b :: bs))
          · exact ih (a :: as) bs

theorem matchedPairsAux_snd_sublist (delta : Nat) :
    ∀ fuel as bs, ((matchedPairsAux delta fuel as bs).map Prod.snd).Sublist bs := by
  intro fuel
  induction fuel with
  | zero => intro as bs; simp [matchedPairsAux]
  | succ f ih =>
    intro as bs
    cases as with
    | nil => simp [matchedPairsAux]
    | cons a as =>
      cases bs with
      | nil => simp [matchedPairsAux]
      | cons b bs =>
        simp only [matchedPairsAux]
        split
        · simpa using List.Sublist.cons₂ b (ih as bs)
        · split
          · exact ih as (b :: bs)
          · exact List.Sublist.cons b (ih (a :: as) bs)

theorem countMatch_le_left (delta : Nat) (as bs : List Int) :
    countMatch delta as bs ≤ as.length := by
  have h := matchedPairsAux_fst_sublist delta (as.length + bs.length) as bs
  have := h.length_le
  simpa [countMatch, countMatchAux_eq_length, matchedPairs] using this

theorem countMatch_le_right (delta : Nat) (as bs : List Int) :
    countMatch delta as bs ≤ bs.length := by
  have h := matchedPairsAux_snd_sublist delta (as.length + bs.length) as bs
  have := h.length_le
  simpa [countMatch, countMatchAux_eq_length, matchedPairs] using this

theorem countMatch_nil_left (delta : Nat) (bs : List Int) :
    countMatch delta [] bs = 0 := by
  cases bs <;> rfl


theorem pickBest_ne_none (x : Nat × Nat × Nat) (l : List (Nat × Nat × Nat)) :
    pickBest (x :: l) ≠ none := by
  simp only [pickBest]
  cases pickBest l with
  | none => simp
  | some y =>
    by_cases hb : better x y = true
    · simp [hb]
    · simp [hb]

theorem pickBest_spec (v : Nat × Nat × Nat → ℚ) :
    ∀ (l : List (Nat × Nat × Nat)) (x : Nat × Nat × Nat),
      (∀ a ∈ l, ∀ b ∈ l,
        better a b = (decide (v b < v a) || (decide (v a = v b) && decide (a.1 < b.1)))) →
      pickBest l = some x →
      x ∈ l ∧ (∀ y ∈ l, v y ≤ v x) ∧ (∀ y ∈ l, v y = v x → x.1 ≤ y.1) := by
  intro l
  induction l with
  | nil => intro x _ hx; simp [pickBest] at hx
  | cons h t ih =>
    intro x hfaith hx
    have hfaith' : ∀ a ∈ t, ∀ b ∈ t,
        better a b = (decide (v b < v a) || (decide (v a = v b) && decide (a.1 < b.1))) := by
      intro a ha b hb
      exact hfaith a (List.mem_cons_of_mem _ ha) b (List.mem_cons_of_mem _ hb)
    simp only [pickBest] at hx
    cases ht : pickBest t with
    | none =>
      rw [ht] at hx
      cases t with
      | nil =>
        simp at hx
        subst hx
        refine ⟨List.mem_singleton.mpr rfl, ?_, ?_⟩
        · intro y hy; rw [List.mem_singleton.mp hy]
        · intro y hy _; rw [List.mem_singleton.mp hy]
      | cons a t2 => exact absurd ht (pickBest_ne_none a t2)
    | some y =>
      rw [ht] at hx
      dsimp only at hx
      obtain ⟨hymem, hymax, hytie⟩ := ih y hfaith' ht
      have hfh : better h y =
          (decide (v y < v h) || (decide (v h = v y) && decide (h.1 < y.1))) :=
        hfaith h (List.mem_cons_self h t) y (List.mem_cons_of_mem _ hymem)
      by_cases hb : better h y = true
      · rw [if_pos hb] at hx
        injection hx with hx
        subst hx
        rw [hfh] at hb
        simp only [Bool.or_eq_true, Bool.and_eq_true, decide_eq_true_eq] at hb
        have hyx : v y ≤ v h := by
          rcases hb with h1 | ⟨h1, _⟩
          · exact le_of_lt h1
          · exact le_of_eq h1.symm
        refine ⟨List.mem_cons_self h t, ?_, ?_⟩
        · intro z hz
          rcases List.mem_cons.mp hz with hz | hz
          · subst hz; exact le_refl _
          · exact le_trans (hymax z hz) hyx
        · intro z hz hveq
          rcases List.mem_cons.mp hz with hz | hz
          · subst hz; exact le_refl _
          · have hzy : v z ≤ v y := hymax z hz
            have hyh : v y = v h := le_antisymm hyx (hveq ▸ hzy)
            rcases hb with h1 | ⟨_, h1⟩
            · exact absurd hyh (ne_of_lt h1)
            · have hzy2 : v z = v y := by rw [hveq, ← hyh]
              exact le_trans (le_of_lt h1) (hytie z hz hzy2)
      · rw [if_neg hb] at hx
        injection hx with hx
        subst hx
        rw [hfh] at hb
        simp only [Bool.or_eq_true, Bool.and_eq_true, decide_eq_true_eq, not_or,
          not_and] at hb
        obtain ⟨hb1, hb2⟩ := hb
        refine ⟨List.mem_cons_of_mem _ hymem, ?_, ?_⟩
        · intro z hz
          rcases List.mem_cons.mp hz with hz | hz
          · subst hz; exact le_of_not_lt hb1
          · exact hymax z hz
        · intro z hz hveq
          rcases List.mem_cons.mp hz with hz | hz
          · subst hz; exact Nat.le_of_not_lt (hb2 hveq)
          · exact hytie z hz hveq

theorem scoreLt_faithful (c1 d1 c2 d2 : Nat) (h1 : 0 < d1) (h2 : 0 < d2) :
    scoreLt c1 d1 c2 d2 = decide ((c1 : ℚ) / (d1 : ℚ) < (c2 : ℚ) / (d2 : ℚ)) := by
  rw [scoreLt, decide_eq_decide]
  rw [div_lt_div_iff₀ (by exact_mod_cast h1) (by exact_mod_cast h2)]
  constructor
  · intro h; exact_mod_cast h
  · intro h; exact_mod_cast h

theorem scoreEq_faithful (c1 d1 c2 d2 : Nat) (h1 : 0 < d1) (h2 : 0 < d2) :
    scoreEq c1 d1 c2 d2 = decide ((c1 : ℚ) / (d1 : ℚ) = (c2 : ℚ) / (d2 : ℚ)) := by
  rw [scoreEq, decide_eq_decide]
  rw [div_eq_div_iff (by positivity) (by positivity)]
  constructor
  · intro h; exact_mod_cast h
  · intro h; exact_mod_cast h

theorem better_faithful (a b : Nat × Nat × Nat) (ha : 0 < a.2.2) (hb : 0 < b.2.2) :
    better a b = (decide (candScore b < candScore a) ||
      (decide (candScore a = candScore b) && decide (a.1 < b.1))) := by
  rw [better, scoreLt_faithful _ _ _ _ hb ha, scoreEq_faithful _ _ _ _ ha hb]
  rfl

theorem candidates_faithful (delta : Nat) (ta : List Int) (sB : Sorting) :
    ∀ a ∈ candidates delta ta sB, ∀ b ∈ candidates delta ta sB,
      better a b = (decide (candScore b < candScore a) ||
        (decide (candScore a = candScore b) && decide (a.1 < b.1))) := by
  intro a ha b hb
  rcases List.mem_map.mp ha with ⟨p, _, hpe⟩
  rcases List.mem_map.mp hb with ⟨q, _, hqe⟩
  cases ta with
  | nil =>
    subst hpe; subst hqe
    simp [better, scoreLt, scoreEq, candScore, countMatch_nil_left]
  | cons t0 ts =>
    have hda : 0 < a.2.2 := by
      subst hpe; simp
    have hdb : 0 < b.2.2 := by
      subst hqe; simp
    exact better_faithful a b hda hdb

theorem agreement_candScore (delta : Nat) (ta : List Int) (q : Nat × SpikeTrain) :
    agreement_score delta ta q.2
      = candScore (q.1, countMatch delta ta q.2, max ta.length q.2.length) := rfl

theorem candidates_cnt_le_den (delta : Nat) (ta : List Int) (sB : Sorting) :
    ∀ e ∈ candidates delta ta sB, e.2.1 ≤ e.2.2 := by
  intro e he
  rcases List.mem_map.mp he with ⟨p, _, hpe⟩
  subst hpe
  exact le_trans (countMatch_le_left delta ta p.2) (le_max_left _ _)

/-- C1: for every ordered pair of trains and tolerance, the match count is
computed by the greedy two-pointer sweep: it equals the number of matched
spike events, every matched event pairs spikes at absolute time difference
at most delta, each spike of either train participates in at most one match
(the matched spikes form a sublist of each train, taken in increasing scan
order), and the agreement fraction is the matched count divided by the
larger train size. -/
theorem claim1_two_pointer_sweep (delta : Nat) (A B : List Int) :
    countMatch delta A B = (matchedPairs delta A B).length
    ∧ (∀ p ∈ matchedPairs delta A B, (p.1 - p.2).natAbs ≤ delta)
    ∧ ((matchedPairs delta A B).map Prod.fst).Sublist A
    ∧ ((matchedPairs delta A B).map Prod.snd).Sublist B
    ∧ agreement_score delta A B
        = (countMatch delta A B : ℚ) / ((max A.length B.length : Nat) : ℚ) := by
  refine ⟨?_, ?_, ?_, ?_, rfl⟩
  · exact countMatchAux_eq_length delta _ A B
  · exact matchedPairsAux_within delta _ A B
  · exact matchedPairsAux_fst_sublist delta _ A B
  · exact matchedPairsAux_snd_sublist delta _ A B

/-- Witness for C1 at the specification's worked example: the sweep on
gt [10, 20, 30] versus tested [11, 21, 50] with delta = 2 matches (10, 11)
within tolerance, and the count equals the matched-event count. -/
theorem claim1_witness :
    ((10 : Int) - 11).natAbs ≤ 2
    ∧ countMatch 2 [10, 20, 30] [11, 21, 50]
        = (matchedPairs 2 [10, 20, 30] [11, 21, 50]).length :=
  ⟨(claim1_two_pointer_sweep 2 [10, 20, 30] [11, 21, 50]).2.1 (10, 11) (by decide),
   (claim1_two_pointer_sweep 2 [10, 20, 30] [11, 21, 50]).1⟩

/-- C2: for every unitA train, `bestMatch` selects the unitB with the
highest agreement fraction provided that fraction strictly exceeds the
configured minimum `tn / td` (default 1/2), breaking ties by lowest unitB
identifier; otherwise unitA is left unmatched, and the `-1` sentinel is
reported exactly for unmatched units. -/
theorem claim2_best_match_selection (delta tn td : Nat) (htd : 0 < td)
    (ta : List Int) (sB : Sorting) :
    (∀ b, bestMatch delta tn td ta sB = some b →
      ∃ p ∈ sB, p.1 = b
        ∧ ((tn : Nat) : ℚ) / ((td : Nat) : ℚ) < agreement_score delta ta p.2
        ∧ (∀ q ∈ sB, agreement_score delta ta q.2 ≤ agreement_score delta ta p.2)
        ∧ (∀ q ∈ sB, agreement_score delta ta q.2 = agreement_score delta ta p.2 →
            b ≤ q.1))
    ∧ (bestMatch delta tn td ta sB = none →
        ∀ q ∈ sB, agreement_score delta ta q.2 ≤ ((tn : Nat) : ℚ) / ((td : Nat) : ℚ))
    ∧ (sentinelOf (bestMatch delta tn td ta sB) = -1
        ↔ bestMatch delta tn td ta sB = none) := by
  cases hp : pickBest (candidates delta ta sB) with
  | none =>
    have hsB : sB = [] := by
      cases hcl : candidates delta ta sB with
      | nil => exact List.map_eq_nil_iff.mp hcl
      | cons c l => rw [hcl] at hp; exact absurd hp (pickBest_ne_none c l)
    have hbm : bestMatch delta tn td ta sB = none := by
      simp only [bestMatch, hp]
    refine ⟨?_, ?_, ?_⟩
    · intro b hb; rw [hbm] at hb; exact absurd hb (by simp)
    · intro _ q hq; rw [hsB] at hq; exact absurd hq (by simp)
    · rw [hbm]; simp [sentinelOf]
  | some x =>
    obtain ⟨hxmem, hxmax, hxtie⟩ := pickBest_spec candScore (candidates delta ta sB) x
      (candidates_faithful delta ta sB) hp
    have hx_le : x.2.1 ≤ x.2.2 := candidates_cnt_le_den delta ta sB x hxmem
    rcases List.mem_map.mp hxmem with ⟨p, hpmem, hpe⟩
    by_cases hth : tn * x.2.2 < x.2.1 * td
    · have hbm : bestMatch delta tn td ta sB = some x.1 := by
        simp only [bestMatch, hp]; rw [if_pos hth]
      have hden : 0 < x.2.2 := by
        rcases Nat.eq_zero_or_pos x.2.2 with h0 | h0
        · exfalso
          have hc0 : x.2.1 = 0 := Nat.le_zero.mp (h0 ▸ hx_le)
          rw [h0, hc0] at hth
          simp at hth
        · exact h0
      have hthq : ((tn : Nat) : ℚ) / ((td : Nat) : ℚ) < candScore x := by
        rw [candScore, div_lt_div_iff₀ (by exact_mod_cast htd) (by exact_mod_cast hden)]
        exact_mod_cast hth
      have hpx : agreement_score delta ta p.2 = candScore x := by
        rw [agreement_candScore delta ta p, hpe]
      refine ⟨?_, ?_, ?_⟩
      · intro b hb
        rw [hbm] at hb
        injection hb with hb
        refine ⟨p, hpmem, ?_, ?_, ?_, ?_⟩
        · rw [← hb, ← hpe]
        · rw [hpx]; exact hthq
        · intro q hq
          have hq2 : (q.1, countMatch delta ta q.2, max ta.length q.2.length)
              ∈ candidates delta ta sB := List.mem_map_of_mem _ hq
          rw [hpx, agreement_candScore delta ta q]
          exact hxmax _ hq2
        · intro q hq heq
          have hq2 : (q.1, countMatch delta ta q.2, max ta.length q.2.length)
              ∈ candidates delta ta sB := List.mem_map_of_mem _ hq
          have heq2 : candScore (q.1, countMatch delta ta q.2, max ta.length q.2.length)
              = candScore x := by
            rw [← agreement_candScore delta ta q, heq, hpx]
          rw [← hb]
          exact hxtie _ hq2 heq2
      · intro hnone; rw [hbm] at hnone; exact absurd hnone (by simp)
      · rw [hbm]
        simp only [sentinelOf]
        constructor
        · intro h; omega
        · intro h; exact absurd h (by simp)
    · have hbm : bestMatch delta tn td ta sB = none := by
        simp only [bestMatch, hp]; rw [if_neg hth]
      refine ⟨?_, ?_, ?_⟩
      · intro b hb; rw [hbm] at hb; exact absurd hb (by simp)
      · intro _ q hq
        have hq2 : (q.1, countMatch delta ta q.2, max ta.length q.2.length)
            ∈ candidates delta ta sB := List.mem_map_of_mem _ hq
        have h1 : agreement_score delta ta q.2 ≤ candScore x := by
          rw [agreement_candScore delta ta q]
          exact hxmax _ hq2
        have h2 : candScore x ≤ ((tn : Nat) : ℚ) / ((td : Nat) : ℚ) := by
          rcases Nat.eq_zero_or_pos x.2.2 with h0 | h0
          · have hc0 : x.2.1 = 0 := Nat.le_zero.mp (h0 ▸ hx_le)
            rw [candScore, hc0, h0]
            simp
            positivity
          · rw [candScore, div_le_div_iff₀ (by exact_mod_cast h0) (by exact_mod_cast htd)]
            have h3 : x.2.1 * td ≤ tn * x.2.2 := Nat.le_of_not_lt hth
            exact_mod_cast h3
        exact le_trans h1 h2
      · rw [hbm]; simp [sentinelOf]

/-- Witness for C2: with threshold 1/2, unitA `[10]` against Sorting B
`[(5, [10]), (7, [100])]` and delta 1 is matched to unitB 5, which has the
strictly highest agreement fraction, exceeding 1/2. -/
theorem claim2_witness :
    ∃ p ∈ [((5 : Nat), [(10 : Int)]), (7, [100])], p.1 = 5
      ∧ ((1 : Nat) : ℚ) / ((2 : Nat) : ℚ) < agreement_score 1 [10] p.2
      ∧ (∀ q ∈ [((5 : Nat), [(10 : Int)]), (7, [100])],
          agreement_score 1 [10] q.2 ≤ agreement_score 1 [10] p.2)
      ∧ (∀ q ∈ [((5 : Nat), [(10 : Int)]), (7, [100])],
          agreement_score 1 [10] q.2 = agreement_score 1 [10] p.2 → 5 ≤ q.1) :=
  (claim2_best_match_selection 1 1 2 (by decide) [10] [(5, [10]), (7, [100])]).1 5
    (by decide)

theorem countMatchAux_self (delta : Nat) :
    ∀ fuel (ts : List Int), ts.length ≤ fuel → countMatchAux delta fuel ts ts = ts.length := by
  intro fuel
  induction fuel with
  | zero =>
    intro ts h
    rw [List.length_eq_zero.mp (Nat.le_zero.mp h)]
    rfl
  | succ f ih =>
    intro ts h
    cases ts with
    | nil => rfl
    | cons a as =>
      simp only [countMatchAux]
      rw [if_pos (by simp)]
      rw [ih as (by simpa using Nat.lt_succ_iff.mp (Nat.lt_of_lt_of_le (by simp) h))]
      simp

theorem countMatch_self (delta : Nat) (ts : List Int) :
    countMatch delta ts ts = ts.length :=
  countMatchAux_self delta (ts.length + ts.length) ts (by omega)

/-- Counterexample to C3 as stated: on the specification's own example the
accuracy is TP / (TP + FP + FN) = 2 / 4 = 1/2, not 2/3; the example's
"precision = recall = accuracy = 2/3" contradicts the accuracy formula the
same claim states. -/
theorem claim3_counterexample :
    accuracy (scorePair 2 [10, 20, 30] [11, 21, 50]) ≠ 2 / 3 := by
  have hex : scorePair 2 [10, 20, 30] [11, 21, 50] = ⟨2, 1, 1⟩ := by decide
  rw [hex, accuracy]
  norm_num

/-- C3 (amended): the scorer computes TP as the matched count, FN and FP as
the remaining gt and tested spikes, and precision, recall and accuracy by
the stated formulas; on the specification's example — gt [10, 20, 30]
versus tested [11, 21, 50] at delta 2 — the matched count is 2, TP = 2,
FN = 1, FP = 1, precision = recall = 2/3, and accuracy = 2/4 = 1/2 (not
2/3 as the example asserts). -/
theorem claim3_performance_scoring (delta : Nat) (gt tested : List Int) :
    (scorePair delta gt tested).tp = countMatch delta gt tested
    ∧ ((scorePair delta gt tested).fn : ℤ)
        = (gt.length : ℤ) - (scorePair delta gt tested).tp
    ∧ ((scorePair delta gt tested).fp : ℤ)
        = (tested.length : ℤ) - (scorePair delta gt tested).tp
    ∧ precision (scorePair delta gt tested)
        = ((scorePair delta gt tested).tp : ℚ)
            / (((scorePair delta gt tested).tp + (scorePair delta gt tested).fp : Nat) : ℚ)
    ∧ recallOf (scorePair delta gt tested)
        = ((scorePair delta gt tested).tp : ℚ)
            / (((scorePair delta gt tested).tp + (scorePair delta gt tested).fn : Nat) : ℚ)
    ∧ accuracy (scorePair delta gt tested)
        = ((scorePair delta gt tested).tp : ℚ)
            / (((scorePair delta gt tested).tp + (scorePair delta gt tested).fp
                + (scorePair delta gt tested).fn : Nat) : ℚ)
    ∧ scorePair 2 [10, 20, 30] [11, 21, 50] = ⟨2, 1, 1⟩
    ∧ precision (scorePair 2 [10, 20, 30] [11, 21, 50]) = 2 / 3
    ∧ recallOf (scorePair 2 [10, 20, 30] [11, 21, 50]) = 2 / 3
    ∧ accuracy (scorePair 2 [10, 20, 30] [11, 21, 50]) = 1 / 2 := by
  have hex : scorePair 2 [10, 20, 30] [11, 21, 50] = ⟨2, 1, 1⟩ := by decide
  refine ⟨rfl, ?_, ?_, rfl, rfl, rfl, hex, ?_, ?_, ?_⟩
  · show ((gt.length - countMatch delta gt tested : Nat) : ℤ)
      = (gt.length : ℤ) - countMatch delta gt tested
    rw [Nat.cast_sub (countMatch_le_left delta gt tested)]
  · show ((tested.length - countMatch delta gt tested : Nat) : ℤ)
      = (tested.length : ℤ) - countMatch delta gt tested
    rw [Nat.cast_sub (countMatch_le_right delta gt tested)]
  · rw [hex, precision]; norm_num
  · rw [hex, recallOf]; norm_num
  · rw [hex, accuracy]; norm_num

/-- C6: PairwiseMatcher.match raises `EmptySortingError` exactly when
either Sorting has zero units, and on that error no CorrespondenceTable is
produced. -/
theorem claim6_empty_sorting_error (delta tn td : Nat) (sA sB : Sorting) :
    (matchSortings delta tn td sA sB = Except.error ComparisonError.emptySorting
      ↔ sA = [] ∨ sB = [])
    ∧ ∀ t, matchSortings delta tn td sA sB = Except.error ComparisonError.emptySorting
        → matchSortings delta tn td sA sB ≠ Except.ok t := by
  have hiff : (sA.isEmpty || sB.isEmpty) = true ↔ (sA = [] ∨ sB = []) := by
    simp [List.isEmpty_iff]
  constructor
  · constructor
    · intro h
      by_contra hc
      rw [matchSortings, if_neg (fun hh => hc (hiff.mp hh))] at h
      exact absurd h (by simp)
    · intro h
      rw [matchSortings, if_pos (hiff.mpr h)]
  · intro t he hok
    rw [he] at hok
    exact absurd hok (by simp)

/-- Witness for C6: matching an empty Sorting against a non-empty one
raises the empty-sorting error and yields no table. -/
theorem claim6_witness :
    matchSortings 1 1 2 [] [(0, [1])] ≠ Except.ok [] :=
  (claim6_empty_sorting_error 1 1 2 [] [(0, [1])]).2 [] rfl

/-- C7: SpikeTrain construction fails with `InvalidTrainError` exactly for
timestamp sequences that are not monotonically non-decreasing or that
contain a negative value, and succeeds (returning the train unchanged)
otherwise. -/
theorem claim7_train_validation (ts : List Int) :
    (mkSpikeTrain ts = Except.error ComparisonError.invalidTrain
      ↔ ¬ List.Chain' (· ≤ ·) ts ∨ ∃ t ∈ ts, t < 0)
    ∧ (mkSpikeTrain ts = Except.ok ts
      ↔ List.Chain' (· ≤ ·) ts ∧ ∀ t ∈ ts, 0 ≤ t) := by
  rw [mkSpikeTrain]
  by_cases h : List.Chain' (· ≤ ·) ts ∧ ∀ t ∈ ts, 0 ≤ t
  · rw [if_pos h]
    constructor
    · constructor
      · intro hh; exact absurd hh (by simp)
      · intro hh
        rcases hh with hh | ⟨t, ht, ht2⟩
        · exact absurd h.1 hh
        · exact absurd (h.2 t ht) (not_le.mpr ht2)
    · constructor
      · intro _; exact h
      · intro _; rfl
  · rw [if_neg h]
    constructor
    · constructor
      · intro _
        rcases not_and_or.mp h with h1 | h2
        · exact Or.inl h1
        · push_neg at h2
          exact Or.inr h2
      · intro _; rfl
    · constructor
      · intro hh; exact absurd hh (by simp)
      · intro hh; exact absurd hh h

/-- Counterexample to C8 as stated: the empty train is a valid SpikeTrain
with timestamps identical to itself, yet its agreement fraction with itself
is 0/0 = 0, not 1. -/
theorem claim8_counterexample :
    agreement_score 1 ([] : List Int) [] ≠ 1 := by
  simp [agreement_score, countMatch, countMatchAux]

/-- C8 (amended to non-empty trains): identical non-empty trains have
agreement fraction 1, and scored as ground truth versus tested both
precision and recall are 1. -/
theorem claim8_identical_trains (delta : Nat) (ts : List Int) (h : ts ≠ []) :
    agreement_score delta ts ts = 1
    ∧ precision (scorePair delta ts ts) = 1
    ∧ recallOf (scorePair delta ts ts) = 1 := by
  have hn : countMatch delta ts ts = ts.length := countMatch_self delta ts
  have hq : ((ts.length : Nat) : ℚ) ≠ 0 := by
    have := List.length_pos.mpr h
    positivity
  refine ⟨?_, ?_, ?_⟩
  · rw [agreement_score, hn, max_self]
    exact div_self hq
  · rw [precision]
    simp only [scorePair, hn, Nat.sub_self, Nat.add_zero]
    exact div_self hq
  · rw [recallOf]
    simp only [scorePair, hn, Nat.sub_self, Nat.add_zero]
    exact div_self hq

/-- Witness for C8: the singleton train [3] against itself. -/
theorem claim8_witness :
    agreement_score 0 [3] [3] = 1
    ∧ precision (scorePair 0 [3] [3]) = 1
    ∧ recallOf (scorePair 0 [3] [3]) = 1 :=
  claim8_identical_trains 0 [3] (by decide)

/-- C9: PairwiseMatcher.match is a pure function of its inputs — in the
embedding it is a mathematical function, so two runs on the same Sortings
and tolerance produce identical CorrespondenceTables and the inputs are
untouched by construction. -/
theorem claim9_match_deterministic (delta tn td : Nat) (sA sB : Sorting) :
    matchSortings delta tn td sA sB = matchSortings delta tn td sA sB := rfl

/-- C10: the consensus result of `getAgreementSorting` is itself a Sorting
(the same type as the inputs), so the same `get_unit_ids` accessor applies
to it; its unit identifiers enumerate the agreement sets. -/
theorem claim10_agreement_sorting_interface (delta tn td : Nat)
    (ss : List Sorting) (m : Nat) :
    get_unit_ids (getAgreementSorting delta tn td ss m)
      = List.range (getAgreementSet delta tn td ss m).length := by
  rw [get_unit_ids, getAgreementSorting, List.map_map]
  have hfst : (Prod.fst ∘ fun p : Nat × List GraphNode =>
      (p.1, (p.2.map (trainOf ss)).headD ([] : SpikeTrain))) = Prod.fst := rfl
  rw [hfst, List.enum_map_fst]

theorem isMutualBest_iff (delta tn td : Nat) (si sj : Sorting) (x y : Nat) :
    isMutualBest delta tn td si sj x y = true ↔
      ∃ tx ty, lookupTrain si x = some tx ∧ lookupTrain sj y = some ty
        ∧ bestMatch delta tn td tx sj = some y
        ∧ bestMatch delta tn td ty si = some x := by
  cases hx : lookupTrain si x with
  | none => simp [isMutualBest, hx]
  | some tx =>
    cases hy : lookupTrain sj y with
    | none => simp [isMutualBest, hx, hy]
    | some ty => simp [isMutualBest, hx, hy]

/-- C4: an edge joins (sortingI, unitX) and (sortingJ, unitY) in the
agreement graph exactly when the two units are mutual best matches above
the threshold — unitY is unitX's thresholded best match in sorting J and
unitX is unitY's in sorting I — so asymmetric correspondences produce no
edge. -/
theorem claim4_mutual_edges (delta tn td : Nat) (ss : List Sorting)
    (i x j y : Nat) :
    ((i, x), (j, y)) ∈ mutualEdges delta tn td ss ↔
      (i < j ∧ j < ss.length
        ∧ x ∈ unitIds (ss.getD i []) ∧ y ∈ unitIds (ss.getD j [])
        ∧ ∃ tx ty, lookupTrain (ss.getD i []) x = some tx
            ∧ lookupTrain (ss.getD j []) y = some ty
            ∧ bestMatch delta tn td tx (ss.getD j []) = some y
            ∧ bestMatch delta tn td ty (ss.getD i []) = some x) := by
  rw [mutualEdges]
  simp only [List.mem_flatMap, List.mem_filter, List.mem_range, List.mem_map,
    decide_eq_true_eq, Prod.mk.injEq]
  constructor
  · rintro ⟨i2, hi2, j2, ⟨hj2, hij2⟩, x2, hx2, y2, ⟨hy2, hmut⟩, ⟨hii, hxx⟩, hjj, hyy⟩
    subst hii; subst hxx; subst hjj; subst hyy
    exact ⟨hij2, hj2, hx2, hy2,
      (isMutualBest_iff delta tn td _ _ _ _).mp hmut⟩
  · rintro ⟨hij, hj, hx2, hy2, hmut⟩
    exact ⟨i, Nat.lt_trans hij hj, j, ⟨hj, hij⟩, x, hx2, y,
      ⟨hy2, (isMutualBest_iff delta tn td (ss.getD i []) (ss.getD j []) x y).mpr hmut⟩,
      ⟨rfl, rfl⟩, rfl, rfl⟩

theorem dedupFAux_spec {α : Type} [DecidableEq α] :
    ∀ (l seen : List α),
      (dedupFAux seen l).Nodup ∧ ∀ x ∈ dedupFAux seen l, x ∉ seen := by
  intro l
  induction l with
  | nil =>
    intro seen
    refine ⟨List.nodup_nil, ?_⟩
    intro x hx
    simp [dedupFAux] at hx
  | cons a t ih =>
    intro seen
    by_cases ha : a ∈ seen
    · simp only [dedupFAux]
      rw [if_pos ha]
      exact ih seen
    · simp only [dedupFAux]
      rw [if_neg ha]
      obtain ⟨h1, h2⟩ := ih (a :: seen)
      refine ⟨?_, ?_⟩
      · exact List.nodup_cons.mpr
          ⟨fun hmem => (h2 a hmem) (List.mem_cons_self a seen), h1⟩
      · intro x hx
        rcases List.mem_cons.mp hx with hx | hx
        · subst hx; exact ha
        · exact fun hxs => (h2 x hx) (List.mem_cons_of_mem _ hxs)

theorem mem_dedupFAux {α : Type} [DecidableEq α] :
    ∀ (l seen : List α) (x : α), x ∈ dedupFAux seen l ↔ x ∈ l ∧ x ∉ seen := by
  intro l
  induction l with
  | nil => intro seen x; simp [dedupFAux]
  | cons a t ih =>
    intro seen x
    by_cases ha : a ∈ seen
    · simp only [dedupFAux]
      rw [if_pos ha, ih]
      constructor
      · rintro ⟨h1, h2⟩; exact ⟨List.mem_cons_of_mem _ h1, h2⟩
      · rintro ⟨h1, h2⟩
        rcases List.mem_cons.mp h1 with h1 | h1
        · subst h1; exact absurd ha h2
        · exact ⟨h1, h2⟩
    · simp only [dedupFAux]
      rw [if_neg ha]
      constructor
      · intro hx
        rcases List.mem_cons.mp hx with hx | hx
        · subst hx; exact ⟨List.mem_cons_self _ _, ha⟩
        · rw [ih] at hx
          obtain ⟨h1, h2⟩ := hx
          exact ⟨List.mem_cons_of_mem _ h1,
            fun hs => h2 (List.mem_cons_of_mem _ hs)⟩
      · rintro ⟨h1, h2⟩
        rcases List.mem_cons.mp h1 with h1 | h1
        · subst h1; exact List.mem_cons_self _ _
        · by_cases hxa : x = a
          · subst hxa; exact List.mem_cons_self _ _
          · refine List.mem_cons_of_mem _ ?_
            rw [ih]
            exact ⟨h1, fun hs => (List.mem_cons.mp hs).elim hxa h2⟩

theorem dedupF_nodup {α : Type} [DecidableEq α] (l : List α) :
    (dedupF l).Nodup :=
  (dedupFAux_spec l []).1

theorem mem_dedupF {α : Type} [DecidableEq α] (l : List α) (x : α) :
    x ∈ dedupF l ↔ x ∈ l := by
  rw [dedupF, mem_dedupFAux]
  simp

theorem filterMap_fst_sublist (f : Nat → Option GraphNode)
    (hf : ∀ i z, f i = some z → z.1 = i) :
    ∀ l : List Nat, ((l.filterMap f).map Prod.fst).Sublist l := by
  intro l
  induction l with
  | nil => simp
  | cons a t ih =>
    cases hfa : f a with
    | none =>
      rw [List.filterMap_cons_none hfa]
      exact List.Sublist.cons a ih
    | some z =>
      rw [List.filterMap_cons_some hfa, List.map_cons, hf a z hfa]
      exact List.Sublist.cons₂ a ih

theorem length_filterMap_full (f : Nat → Option GraphNode) :
    ∀ l : List Nat, (∀ i ∈ l, f i ≠ none) → (l.filterMap f).length = l.length := by
  intro l
  induction l with
  | nil => intro _; rfl
  | cons a t ih =>
    intro h
    cases hfa : f a with
    | none => exact absurd hfa (h a (List.mem_cons_self a t))
    | some z =>
      rw [List.filterMap_cons_some hfa, List.length_cons, List.length_cons,
        ih (fun i hi => h i (List.mem_cons_of_mem _ hi))]

theorem resolveConflicts_fst_nodup (delta : Nat) (ss : List Sorting)
    (c : List GraphNode) :
    ((resolveConflicts delta ss c).map Prod.fst).Nodup := by
  have hs : ((resolveConflicts delta ss c).map Prod.fst).Sublist (sortingIdxs c) := by
    rw [resolveConflicts]
    apply filterMap_fst_sublist
    intro i z hz
    cases hpb : pickBest ((c.filter fun n => n.1 == i).map fun n =>
        (n.2, sumScores delta ss (c.filter fun m => !(m.1 == i)) n)) with
    | none => rw [hpb] at hz; exact absurd hz (by simp)
    | some w =>
      rw [hpb] at hz
      simp only [Option.map_some'] at hz
      injection hz with hz
      rw [← hz]
  exact hs.nodup (dedupF_nodup _)

theorem resolveConflicts_length (delta : Nat) (ss : List Sorting)
    (c : List GraphNode) :
    (resolveConflicts delta ss c).length = distinctSortingCount c := by
  rw [resolveConflicts, distinctSortingCount, sortingIdxs]
  apply length_filterMap_full
  intro i hi
  have hi2 : i ∈ c.map Prod.fst := (mem_dedupF _ _).mp hi
  rcases List.mem_map.mp hi2 with ⟨n, hn, hni⟩
  have hmf : n ∈ c.filter (fun n2 => n2.1 == i) :=
    List.mem_filter.mpr ⟨hn, by simp [hni]⟩
  have hmm : (n.2, sumScores delta ss (c.filter fun m => !(m.1 == i)) n)
      ∈ (c.filter fun n2 => n2.1 == i).map (fun n2 =>
        (n2.2, sumScores delta ss (c.filter fun m => !(m.1 == i)) n2)) :=
    List.mem_map_of_mem _ hmf
  rcases List.exists_cons_of_ne_nil (List.ne_nil_of_mem hmm) with ⟨a2, l2, hL⟩
  rw [hL]
  cases hpb : pickBest (a2 :: l2) with
  | none => exact absurd hpb (pickBest_ne_none a2 l2)
  | some w => simp [hpb]

theorem scoreFrac_den_pos (delta : Nat) (a b : List Int) :
    0 < (scoreFrac delta a b).2 := by
  rw [scoreFrac]
  by_cases h : max a.length b.length = 0
  · rw [if_pos h]; exact Nat.one_pos
  · rw [if_neg h]; exact Nat.pos_of_ne_zero h

theorem scoreFrac_val (delta : Nat) (a b : List Int) :
    fracVal (scoreFrac delta a b) = agreement_score delta a b := by
  rw [scoreFrac]
  by_cases h : max a.length b.length = 0
  · rw [if_pos h]
    obtain ⟨ha, hb⟩ := Nat.max_eq_zero_iff.mp h
    rw [List.length_eq_zero] at ha hb
    subst ha; subst hb
    simp [fracVal, agreement_score, countMatch, countMatchAux]
  · rw [if_neg h]
    rfl

theorem fracVal_addFrac (x y : Nat × Nat) (hx : 0 < x.2) (hy : 0 < y.2) :
    fracVal (addFrac x y) = fracVal x + fracVal y := by
  have hx2 : ((x.2 : Nat) : ℚ) ≠ 0 := ne_of_gt (by exact_mod_cast hx)
  have hy2 : ((y.2 : Nat) : ℚ) ≠ 0 := ne_of_gt (by exact_mod_cast hy)
  simp only [fracVal, addFrac]
  rw [div_add_div _ _ hx2 hy2]
  push_cast
  ring_nf

theorem sumScores_den_pos (delta : Nat) (ss : List Sorting) (n : GraphNode) :
    ∀ others : List GraphNode, 0 < (sumScores delta ss others n).2 := by
  intro others
  induction others with
  | nil => exact Nat.one_pos
  | cons m ms ih =>
    have hstep : sumScores delta ss (m :: ms) n
        = addFrac (scoreFrac delta (trainOf ss n) (trainOf ss m))
            (sumScores delta ss ms n) := rfl
    rw [hstep, addFrac]
    exact Nat.mul_pos (scoreFrac_den_pos delta _ _) ih

theorem sumScores_val (delta : Nat) (ss : List Sorting) (n : GraphNode) :
    ∀ others : List GraphNode,
      fracVal (sumScores delta ss others n) = sumPairwiseScore delta ss others n := by
  intro others
  induction others with
  | nil => simp [sumScores, sumPairwiseScore, fracVal]
  | cons m ms ih =>
    have hstep : sumScores delta ss (m :: ms) n
        = addFrac (scoreFrac delta (trainOf ss n) (trainOf ss m))
            (sumScores delta ss ms n) := rfl
    rw [hstep,
      fracVal_addFrac _ _ (scoreFrac_den_pos delta _ _) (sumScores_den_pos delta ss n ms),
      scoreFrac_val, ih]
    simp [sumPairwiseScore]

theorem filterMap_fst_full (f : Nat → Option GraphNode) :
    ∀ l : List Nat, (∀ i ∈ l, ∃ z, f i = some z ∧ z.1 = i) →
      (l.filterMap f).map Prod.fst = l := by
  intro l
  induction l with
  | nil => intro _; rfl
  | cons a t ih =>
    intro h
    rcases h a (List.mem_cons_self a t) with ⟨z, hz, hz1⟩
    rw [List.filterMap_cons_some hz, List.map_cons, hz1,
      ih (fun i hi => h i (List.mem_cons_of_mem _ hi))]

theorem resolveConflicts_fst (delta : Nat) (ss : List Sorting)
    (c : List GraphNode) :
    (resolveConflicts delta ss c).map Prod.fst = sortingIdxs c := by
  rw [resolveConflicts]
  apply filterMap_fst_full
  intro i hi
  have hi2 : i ∈ c.map Prod.fst := (mem_dedupF _ _).mp hi
  rcases List.mem_map.mp hi2 with ⟨n, hn, hni⟩
  have hmf : n ∈ c.filter (fun n2 => n2.1 == i) :=
    List.mem_filter.mpr ⟨hn, by simp [hni]⟩
  have hmm : (n.2, sumScores delta ss (c.filter fun m => !(m.1 == i)) n)
      ∈ (c.filter fun n2 => n2.1 == i).map (fun n2 =>
        (n2.2, sumScores delta ss (c.filter fun m => !(m.1 == i)) n2)) :=
    List.mem_map_of_mem _ hmf
  rcases List.exists_cons_of_ne_nil (List.ne_nil_of_mem hmm) with ⟨a2, l2, hL⟩
  rw [hL]
  cases hpb : pickBest (a2 :: l2) with
  | none => exact absurd hpb (pickBest_ne_none a2 l2)
  | some w => exact ⟨(i, w.1), by simp [hpb], rfl⟩

theorem resolveConflicts_selection (delta : Nat) (ss : List Sorting)
    (c : List GraphNode) :
    ∀ n ∈ resolveConflicts delta ss c,
      n ∈ c
      ∧ ∀ n2 ∈ c, n2.1 = n.1 →
          meanPairwiseScore delta ss (c.filter fun m => !(m.1 == n.1)) n2
            ≤ meanPairwiseScore delta ss (c.filter fun m => !(m.1 == n.1)) n
          ∧ (meanPairwiseScore delta ss (c.filter fun m => !(m.1 == n.1)) n2
              = meanPairwiseScore delta ss (c.filter fun m => !(m.1 == n.1)) n
            → n.2 ≤ n2.2) := by
  intro n hn
  rw [resolveConflicts] at hn
  rcases List.mem_filterMap.mp hn with ⟨i, hi, hfi⟩
  cases hpb : pickBest ((c.filter fun n2 => n2.1 == i).map fun n2 =>
      (n2.2, sumScores delta ss (c.filter fun m => !(m.1 == i)) n2)) with
  | none => rw [hpb] at hfi; exact absurd hfi (by simp)
  | some x =>
    rw [hpb] at hfi
    simp only [Option.map_some'] at hfi
    injection hfi with hfi
    have hn1 : n.1 = i := by rw [← hfi]
    have hfaith : ∀ a ∈ (c.filter fun n2 => n2.1 == i).map (fun n2 =>
          (n2.2, sumScores delta ss (c.filter fun m => !(m.1 == i)) n2)),
        ∀ b ∈ (c.filter fun n2 => n2.1 == i).map (fun n2 =>
          (n2.2, sumScores delta ss (c.filter fun m => !(m.1 == i)) n2)),
        better a b = (decide (candScore b < candScore a) ||
          (decide (candScore a = candScore b) && decide (a.1 < b.1))) := by
      intro a ha b hb
      rcases List.mem_map.mp ha with ⟨ma, _, hae⟩
      rcases List.mem_map.mp hb with ⟨mb2, _, hbe⟩
      apply better_faithful
      · rw [← hae]; exact sumScores_den_pos delta ss ma _
      · rw [← hbe]; exact sumScores_den_pos delta ss mb2 _
    obtain ⟨hxmem, hxmax, hxtie⟩ := pickBest_spec candScore _ x hfaith hpb
    rcases List.mem_map.mp hxmem with ⟨n0, hn0f, hn0e⟩
    obtain ⟨hn0c, hn0b⟩ := List.mem_filter.mp hn0f
    have hn0i : n0.1 = i := by simpa using hn0b
    have hx1 : x.1 = n0.2 := by rw [← hn0e]
    have hnn0 : n = n0 := by
      rw [← hfi, hx1, ← hn0i]
    have hcx : candScore x
        = sumPairwiseScore delta ss (c.filter fun m => !(m.1 == i)) n := by
      rw [← hn0e, hnn0]
      exact sumScores_val delta ss n0 _
    refine ⟨hnn0 ▸ hn0c, ?_⟩
    intro n2 hn2 hn21
    have hn2i : n2.1 = i := hn21.trans hn1
    have hn2f : n2 ∈ c.filter (fun n3 => n3.1 == i) :=
      List.mem_filter.mpr ⟨hn2, by simp [hn2i]⟩
    have hyL : (n2.2, sumScores delta ss (c.filter fun m => !(m.1 == i)) n2)
        ∈ (c.filter fun n3 => n3.1 == i).map (fun n3 =>
          (n3.2, sumScores delta ss (c.filter fun m => !(m.1 == i)) n3)) :=
      List.mem_map_of_mem _ hn2f
    have hmax := hxmax _ hyL
    have htie := hxtie _ hyL
    have hcy : candScore (n2.2, sumScores delta ss (c.filter fun m => !(m.1 == i)) n2)
        = sumPairwiseScore delta ss (c.filter fun m => !(m.1 == i)) n2 :=
      sumScores_val delta ss n2 _
    rw [hn1]
    constructor
    · have hsum : sumPairwiseScore delta ss (c.filter fun m => !(m.1 == i)) n2
          ≤ sumPairwiseScore delta ss (c.filter fun m => !(m.1 == i)) n := by
        rw [← hcx, ← hcy]; exact hmax
      rw [meanPairwiseScore, meanPairwiseScore, div_eq_mul_inv, div_eq_mul_inv]
      exact mul_le_mul_of_nonneg_right hsum (inv_nonneg.mpr (by positivity))
    · intro hmeq
      have hsum2 : sumPairwiseScore delta ss (c.filter fun m => !(m.1 == i)) n2
          = sumPairwiseScore delta ss (c.filter fun m => !(m.1 == i)) n := by
        rcases Nat.eq_zero_or_pos (c.filter fun m => !(m.1 == i)).length with h0 | h0
        · have hnil : (c.filter fun m => !(m.1 == i)) = [] := List.length_eq_zero.mp h0
          rw [hnil]
          simp [sumPairwiseScore]
        · have hlen : (((c.filter fun m => !(m.1 == i)).length : Nat) : ℚ) ≠ 0 := by
            exact_mod_cast Nat.pos_iff_ne_zero.mp h0
          rw [meanPairwiseScore, meanPairwiseScore] at hmeq
          have h1 := div_mul_cancel₀
            (sumPairwiseScore delta ss (c.filter fun m => !(m.1 == i)) n2) hlen
          have h2 := div_mul_cancel₀
            (sumPairwiseScore delta ss (c.filter fun m => !(m.1 == i)) n) hlen
          rw [← h1, ← h2, hmeq]
      have hceq : candScore (n2.2, sumScores delta ss (c.filter fun m => !(m.1 == i)) n2)
          = candScore x := by
        rw [hcy, hcx]; exact hsum2
      have hid := htie hceq
      have hn2x : n.2 = x.1 := by rw [← hfi]
      rw [hn2x]
      exact hid

/-- C5: `getAgreementSet` returns exactly the connected components of the
agreement graph whose distinct-sorting count reaches `minimumMatching`,
with conflicts resolved; every returned set keeps exactly one unit per
sorting — for each distinct sorting of the component the surviving unit is
a member with the highest mean pairwise score against the other sortings'
members, ties broken by lowest unit identifier — and spans at least
`minimumMatching` sortings.  In the three-sortings scenario (unit trains
[10], [11] and [50], delta 1) the call with minimumMatching 2 returns one
agreement set holding sorting A's and B's units and excluding C's; in the
conflict scenarios two units of sorting A share one component and exactly
the higher-mean one (respectively, on a tie, the lower-identifier one)
survives. -/
theorem claim5_agreement_sets (delta tn td mm : Nat) (ss : List Sorting) :
    (∀ a, a ∈ getAgreementSet delta tn td ss mm ↔
      ∃ c ∈ components (mutualEdges delta tn td ss) (allNodes ss),
        mm ≤ distinctSortingCount c ∧ a = resolveConflicts delta ss c)
    ∧ (∀ a ∈ getAgreementSet delta tn td ss mm,
        (a.map Prod.fst).Nodup ∧ mm ≤ a.length)
    ∧ (∀ c : List GraphNode, ∀ n ∈ resolveConflicts delta ss c,
        n ∈ c
        ∧ ∀ n2 ∈ c, n2.1 = n.1 →
            meanPairwiseScore delta ss (c.filter fun m => !(m.1 == n.1)) n2
              ≤ meanPairwiseScore delta ss (c.filter fun m => !(m.1 == n.1)) n
            ∧ (meanPairwiseScore delta ss (c.filter fun m => !(m.1 == n.1)) n2
                = meanPairwiseScore delta ss (c.filter fun m => !(m.1 == n.1)) n
              → n.2 ≤ n2.2))
    ∧ (∀ c : List GraphNode,
        (resolveConflicts delta ss c).map Prod.fst = sortingIdxs c)
    ∧ getAgreementSet 1 1 2 [[(0, [10])], [(0, [11])], [(0, [50])]] 2
        = [[(0, 0), (1, 0)]]
    ∧ getAgreementSet 1 1 2
        [[(0, [0, 2]), (1, [2, 10, 12])], [(0, [0, 2, 10])], [(0, [2, 10, 12])]] 2
        = [[(0, 1), (1, 0), (2, 0)]]
    ∧ getAgreementSet 1 1 2
        [[(0, [0, 2]), (1, [10, 12])], [(0, [0, 2, 10])], [(0, [2, 10, 12])]] 2
        = [[(0, 0), (1, 0), (2, 0)]] := by
  refine ⟨?_, ?_, ?_, ?_, ?_, ?_, ?_⟩
  · intro a
    simp only [getAgreementSet, List.mem_map, List.mem_filter, decide_eq_true_eq]
    constructor
    · rintro ⟨c, ⟨hc, hm⟩, rfl⟩; exact ⟨c, hc, hm, rfl⟩
    · rintro ⟨c, hc, hm, rfl⟩; exact ⟨c, ⟨hc, hm⟩, rfl⟩
  · intro a ha
    rcases List.mem_map.mp ha with ⟨c, hc, rfl⟩
    obtain ⟨hcm, hcd⟩ := List.mem_filter.mp hc
    refine ⟨resolveConflicts_fst_nodup delta ss c, ?_⟩
    rw [resolveConflicts_length]
    exact of_decide_eq_true hcd
  · exact fun c => resolveConflicts_selection delta ss c
  · exact fun c => resolveConflicts_fst delta ss c
  · decide
  · decide
  · decide

/-- Witness for C5: on the conflict scenarios, sorting A's units 0 and 1
share one component with sorting B's and C's units; the returned set keeps
one unit per sorting and spans three sortings; in the strict scenario the
survivor (unit 1) has at least the mean pairwise score of its competitor
(unit 0); in the tie scenario the competitors' means coincide and the
surviving unit 0 has the lower identifier. -/
theorem claim5_witness :
    ((([((0 : Nat), (1 : Nat)), (1, 0), (2, 0)]).map Prod.fst).Nodup
      ∧ 2 ≤ ([((0 : Nat), (1 : Nat)), (1, 0), (2, 0)]).length)
    ∧ (meanPairwiseScore 1
          [[(0, [0, 2]), (1, [2, 10, 12])], [(0, [0, 2, 10])], [(0, [2, 10, 12])]]
          (([((0 : Nat), (0 : Nat)), (1, 0), (2, 0), (0, 1)]).filter
            fun m => !(m.1 == 0)) (0, 0)
        ≤ meanPairwiseScore 1
          [[(0, [0, 2]), (1, [2, 10, 12])], [(0, [0, 2, 10])], [(0, [2, 10, 12])]]
          (([((0 : Nat), (0 : Nat)), (1, 0), (2, 0), (0, 1)]).filter
            fun m => !(m.1 == 0)) (0, 1))
    ∧ (meanPairwiseScore 1
          [[(0, [0, 2]), (1, [10, 12])], [(0, [0, 2, 10])], [(0, [2, 10, 12])]]
          (([((0 : Nat), (0 : Nat)), (1, 0), (2, 0), (0, 1)]).filter
            fun m => !(m.1 == 0)) (0, 1)
          = meanPairwiseScore 1
            [[(0, [0, 2]), (1, [10, 12])], [(0, [0, 2, 10])], [(0, [2, 10, 12])]]
            (([((0 : Nat), (0 : Nat)), (1, 0), (2, 0), (0, 1)]).filter
              fun m => !(m.1 == 0)) (0, 0)
        → (0 : Nat) ≤ 1) :=
  ⟨(claim5_agreement_sets 1 1 2 2
      [[(0, [0, 2]), (1, [2, 10, 12])], [(0, [0, 2, 10])], [(0, [2, 10, 12])]]).2.1
      [(0, 1), (1, 0), (2, 0)] (by decide),
   (((claim5_agreement_sets 1 1 2 2
      [[(0, [0, 2]), (1, [2, 10, 12])], [(0, [0, 2, 10])], [(0, [2, 10, 12])]]).2.2.1
      [(0, 0), (1, 0), (2, 0), (0, 1)] (0, 1) (by decide)).2
      (0, 0) (by decide) rfl).1,
   (((claim5_agreement_sets 1 1 2 2
      [[(0, [0, 2]), (1, [10, 12])], [(0, [0, 2, 10])], [(0, [2, 10, 12])]]).2.2.1
      [(0, 0), (1, 0), (2, 0), (0, 1)] (0, 0) (by decide)).2
      (0, 1) (by decide) rfl).2⟩

end SpikeComparison
